import Mathlib

/-
Verification development for the online machine-learning pipeline engine
described in spec.md of this repository.  The repository's source tree
contains only the documentation notebooks that exercise the engine
(construction of Pipelines, TransformerUnions, TargetAgg feature
extractors, Rolling windows over Mean accumulators, and the
predict-then-learn driver loop); the engine implementation itself is not
part of the tree.  The definitions below are therefore modelled from the
specification, faithful to its words, and the notebooks are used as
behavioural evidence where they show concrete inputs and outputs.
-/

namespace River

/-- Modelled from the spec: a feature value is a tagged scalar
(number, boolean or text); timestamps are not needed by any claim and
are omitted.  Numbers are modelled as exact rationals. -/
inductive Value where
| num (q : ℚ)
| str (s : String)
| boolv (b : Bool)
deriving DecidableEq

/-- Modelled from the spec: an Observation is a mapping from feature
name to feature value, keys unique, represented as an association
list in insertion order. -/
abbrev Obs : Type := List (String × Value)

/-- Look up a feature by name in an observation. -/
def lookupKey (x : Obs) (k : String) : Option Value :=
  match x with
  | [] => none
  | (k', v) :: rest => if k' = k then some v else lookupKey rest k

/-- The feature names of an observation fragment. -/
def keysOf (x : Obs) : List String :=
  (x : List (String × Value)).map Prod.fst

/-- Modelled from the spec: the error kinds surfaced by the core
(MissingFeature, KeyCollision, InvalidState); NoCapability is the
modelling device for calling a capability a step does not implement. -/
inductive Err where
| MissingFeature
| KeyCollision
| InvalidState
| NoCapability
deriving DecidableEq

/-- Modelled from the spec: the Mean stat accumulator keeps a running
count and a running sum. -/
structure Mean where
  count : Nat
  sum : ℚ
deriving DecidableEq

/-- A fresh Mean accumulator with no values seen yet. -/
def Mean.init : Mean := ⟨0, 0⟩

/-- Modelled from the spec: forward update of the Mean accumulator,
count += 1 and sum += value. -/
def Mean.update (m : Mean) (v : ℚ) : Mean :=
  ⟨m.count + 1, m.sum + v⟩

/-- Modelled from the spec: reverse update of the Mean accumulator on
eviction, count -= 1 and sum -= value; fails with InvalidState when it
would drive count below zero. -/
def Mean.revert (m : Mean) (v : ℚ) : Except Err Mean :=
  match m.count with
  | 0 => .error .InvalidState
  | k + 1 => .ok ⟨k, m.sum - v⟩

/-- Modelled from the spec: get returns sum divided by count when
count is positive, and the sentinel none (no value yet) otherwise. -/
def Mean.get (m : Mean) : Option ℚ :=
  match m.count with
  | 0 => none
  | k + 1 => some (m.sum / ((k + 1 : Nat) : ℚ))

/-- Forward-update a Mean accumulator with a whole list of values. -/
def meanUpdateList (m : Mean) (vs : List ℚ) : Mean :=
  match vs with
  | [] => m
  | v :: rest => meanUpdateList (m.update v) rest

/-- Reverse-update a Mean accumulator with a whole list of values,
propagating an InvalidState failure. -/
def meanRevertList (m : Mean) (vs : List ℚ) : Except Err Mean :=
  match vs with
  | [] => .ok m
  | v :: rest =>
    match m.revert v with
    | .error e => .error e
    | .ok m' => meanRevertList m' rest

/-- The statistic recomputed directly from a list of raw values:
none when the list is empty, otherwise the exact mean. -/
def meanOfList (vs : List ℚ) : Option ℚ :=
  match vs with
  | [] => none
  | _ :: _ => some (vs.sum / ((vs.length : Nat) : ℚ))

/-- Modelled from the spec: a Rolling Window holds a fixed capacity,
the ordered list of currently retained values (oldest first), and the
wrapped Mean accumulator that is updated incrementally. -/
structure Rolling where
  capacity : Nat
  window : List ℚ
  acc : Mean
deriving DecidableEq

/-- A fresh Rolling window of the given capacity. -/
def Rolling.init (c : Nat) : Rolling := ⟨c, [], Mean.init⟩

/-- Modelled from the spec: update appends the value, applies the
accumulator's forward update, and if the size would exceed the
capacity evicts the oldest value, applying the accumulator's reverse
update for the evicted value. -/
def Rolling.update (r : Rolling) (v : ℚ) : Except Err Rolling :=
  let acc1 := r.acc.update v
  if r.window.length + 1 ≤ r.capacity then
    .ok ⟨r.capacity, r.window ++ [v], acc1⟩
  else
    match r.window with
    | [] =>
      match acc1.revert v with
      | .error e => .error e
      | .ok acc2 => .ok ⟨r.capacity, [], acc2⟩
    | old :: rest =>
      match acc1.revert old with
      | .error e => .error e
      | .ok acc2 => .ok ⟨r.capacity, rest ++ [v], acc2⟩

/-- get on a Rolling window delegates to the wrapped accumulator. -/
def Rolling.get (r : Rolling) : Option ℚ := r.acc.get

/-- Feed a list of values through a Rolling window in order. -/
def Rolling.updateList (r : Rolling) (vs : List ℚ) : Except Err Rolling :=
  match vs with
  | [] => .ok r
  | v :: rest =>
    match r.update v with
    | .error e => .error e
    | .ok r' => r'.updateList rest

/-- Well-formedness of a Rolling window: the retained list fits the
capacity and the accumulator agrees with the retained raw values. -/
def Rolling.WF (r : Rolling) : Prop :=
  r.window.length ≤ r.capacity ∧
  r.acc.count = r.window.length ∧
  r.acc.sum = r.window.sum

/-- Modelled from the spec: the Grouped Aggregator (TargetAgg) keeps
the group-by feature name, the target name, the window size, and one
Rolling window per group key, created lazily. -/
structure TargetAgg where
  by_ : String
  target_name : String
  window_size : Nat
  groups : List (Value × Rolling)
deriving DecidableEq

/-- A fresh Grouped Aggregator with no groups yet. -/
def TargetAgg.init (b t : String) (c : Nat) : TargetAgg := ⟨b, t, c, []⟩

/-- Modelled from the spec: the aggregator's derived feature name,
built deterministically from the target name, the statistic, and the
group-by field, as displayed by the notebooks (y_mean_by_store_id). -/
def TargetAgg.featureName (a : TargetAgg) : String :=
  a.target_name ++ "_mean_by_" ++ a.by_

/-- Look up the per-key Rolling window of a group key. -/
def lookupGroup (gs : List (Value × Rolling)) (k : Value) : Option Rolling :=
  match gs with
  | [] => none
  | (k', r) :: rest => if k' = k then some r else lookupGroup rest k

/-- Replace the Rolling window of a group key, or append it. -/
def upsertGroup (gs : List (Value × Rolling)) (k : Value) (r : Rolling) :
    List (Value × Rolling) :=
  match gs with
  | [] => [(k, r)]
  | (k', r') :: rest =>
    if k' = k then (k, r) :: rest else (k', r') :: upsertGroup rest k r

/-- Modelled from the spec: transform_one derives the group key from
the configured feature, fails with MissingFeature when that feature
is absent, and returns one derived feature holding the per-key
window's current statistic (0 when the key is unseen or the window is
empty), without touching the current observation's target and without
mutating any state. -/
def TargetAgg.transform_one (a : TargetAgg) (x : Obs) : Except Err Obs :=
  match lookupKey x a.by_ with
  | none => .error .MissingFeature
  | some k =>
    .ok [(a.featureName, .num (((lookupGroup a.groups k).bind Rolling.get).getD 0))]

/-- Modelled from the spec: learn_one derives the same group key,
creates the per-key Rolling window on first sight, and feeds the
current observation's target into it. -/
def TargetAgg.learn_one (a : TargetAgg) (x : Obs) (y : ℚ) : Except Err TargetAgg :=
  match lookupKey x a.by_ with
  | none => .error .MissingFeature
  | some k =>
    match ((lookupGroup a.groups k).getD (Rolling.init a.window_size)).update y with
    | .error e => .error e
    | .ok w' => .ok ⟨a.by_, a.target_name, a.window_size, upsertGroup a.groups k w'⟩

/-- Feed a stream of (observation, target) pairs through learn_one. -/
def TargetAgg.learnList (a : TargetAgg) (s : List (Obs × ℚ)) : Except Err TargetAgg :=
  match s with
  | [] => .ok a
  | (x, y) :: rest =>
    match a.learn_one x y with
    | .error e => .error e
    | .ok a' => a'.learnList rest

/-- The targets of the stream entries whose group-by feature equals
the given key, in stream order. -/
def targetsFor (b : String) (k : Value) (s : List (Obs × ℚ)) : List ℚ :=
  match s with
  | [] => []
  | (x, y) :: rest =>
    if lookupKey x b = some k then y :: targetsFor b k rest
    else targetsFor b k rest

/-- The rolling statistic a fresh window of the given capacity yields
after being fed a list of values (0 when the window errors or is
empty). -/
def rollingStatOf (c : Nat) (ts : List ℚ) : ℚ :=
  match (Rolling.init c).updateList ts with
  | .error _ => 0
  | .ok w => (w.get).getD 0

/-- The groups of an aggregator agree with replaying each key's target
history through a fresh Rolling window of the configured capacity. -/
def GroupsOK (c : Nat) (hist : Value → List ℚ) (gs : List (Value × Rolling)) : Prop :=
  ∀ k, (Rolling.init c).updateList (hist k) =
    .ok ((lookupGroup gs k).getD (Rolling.init c))

/-- The two key-A observations of the leakage scenario, targets 10
then 20, followed by a third key-A observation. -/
def c1demoStream : List (Obs × ℚ) :=
  [([(("g"), Value.str ("A"))], 10), ([(("g"), Value.str ("A"))], 20)]

def c1demoX : Obs := [(("g"), Value.str ("A")), (("other"), Value.num 999)]

def c1demoAgg : TargetAgg :=
  ⟨("g"), ("y"), 2, [(Value.str ("A"), ⟨2, [10, 20], ⟨2, 30⟩⟩)]⟩

mutual
/-- Modelled from the spec: a Step is the uniform contract implemented
by every pipeline component; the concrete variants are a wrapped plain
function (FuncTransformer), the Grouped Aggregator, a Discard step, a
minimal estimator (a running mean of the targets, since specific
learning algorithms are outside the core), a TransformerUnion of named
members, and a Pipeline of named steps. -/
inductive Step where
| func (name : String) (f : Obs → Obs)
| agg (a : TargetAgg)
| discard (keys : List String)
| est (m : Mean)
| union (members : Steps)
| pipe (steps : Steps)
/-- An ordered list of (name, Step) pairs. -/
inductive Steps where
| nil
| cons (name : String) (s : Step) (rest : Steps)
end

def Steps.append (xs ys : Steps) : Steps :=
  match xs with
  | .nil => ys
  | .cons n s rest => .cons n s (rest.append ys)

/-- Modelled from the spec: when the caller supplies no name, a step's
name is derived deterministically from its type and identity; for the
Grouped Aggregator it is derived from the target name and the group-by
field, so aggregators differing only in window size collide. -/
def autoName (s : Step) : String :=
  match s with
  | .func n _ => n
  | .agg a => a.target_name ++ "_mean_by_" ++ a.by_
  | .discard _ => "Discard"
  | .est _ => "MeanEstimator"
  | .union _ => "TransformerUnion"
  | .pipe _ => "Pipeline"

/-- The named step list a value contributes to a sequential
composition: a Pipeline is flattened one level, anything else
(a Union included) stays one single composite step. -/
def Step.toSteps (s : Step) : Steps :=
  match s with
  | .pipe ss => ss
  | s => .cons (autoName s) s .nil

/-- The named member list a value contributes to a parallel
composition: a Union is flattened one level, anything else stays one
single member. -/
def Step.toMembers (s : Step) : Steps :=
  match s with
  | .union ms => ms
  | s => .cons (autoName s) s .nil

/-- Modelled from the spec: sequential compose produces a Pipeline
whose step list is the concatenation, flattening nested Pipelines one
level but keeping Unions as single composite steps. -/
def seqCompose (a b : Step) : Step :=
  .pipe (a.toSteps.append b.toSteps)

/-- Modelled from the spec: parallel compose produces a Union whose
member list is the concatenation, flattening nested Unions one
level. -/
def parCompose (a b : Step) : Step :=
  .union (a.toMembers.append b.toMembers)

/-- The explicit Pipeline constructor. -/
def Pipeline (ss : Steps) : Step := .pipe ss

/-- The explicit TransformerUnion constructor. -/
def TransformerUnion (ms : Steps) : Step := .union ms

/-- The explicit FuncTransformer constructor wrapping a plain
function as a stateless transformer Step. -/
def FuncTransformer (n : String) (f : Obs → Obs) : Step := .func n f

/-- Modelled from the spec: the automatic wrapping applied to a plain
function wherever a Step is expected in a composition operator. -/
def stepOfFunc (n : String) (f : Obs → Obs) : Step := FuncTransformer n f

/-- Modelled from the spec: Discard removes the named keys from the
observation, silently when a key is already absent. -/
def removeKeys (ks : List String) (x : Obs) : Obs :=
  x.filter (fun p => !(ks.contains p.fst))

/-- Whether two observation fragments share a feature name. -/
def keyClash (o1 o2 : Obs) : Bool :=
  (keysOf o1).any (fun k => (keysOf o2).any (fun k2 => k2 == k))

mutual
/-- Modelled from the spec: transform_one of each step variant; it
returns the step's output fragment together with the post-call step,
which the spec requires to be unchanged (transform must not mutate).
A Union runs every member on the same incoming observation and merges
their outputs in declaration order, failing with KeyCollision when
two members produce the same feature name; a Pipeline threads the
observation through its steps in order; the estimator contributes no
transform and passes the observation through unchanged. -/
def stepTransformS (s : Step) (x : Obs) : Except Err (Obs × Step) :=
  match s with
  | .func n f => .ok (f x, .func n f)
  | .agg a =>
    match a.transform_one x with
    | .error e => .error e
    | .ok frag => .ok (frag, .agg a)
  | .discard ks => .ok (removeKeys ks x, .discard ks)
  | .est m => .ok (x, .est m)
  | .union ms =>
    match unionTransformGo ms x with
    | .error e => .error e
    | .ok (merged, ms') => .ok (merged, .union ms')
  | .pipe ss =>
    match pipeTransformGo ss x with
    | .error e => .error e
    | .ok (x2, ss') => .ok (x2, .pipe ss')
def unionTransformGo (ms : Steps) (x : Obs) : Except Err (Obs × Steps) :=
  match ms with
  | .nil => .ok ([], .nil)
  | .cons n s rest =>
    match stepTransformS s x with
    | .error e => .error e
    | .ok (frag, s') =>
      match unionTransformGo rest x with
      | .error e => .error e
      | .ok (acc, rest') =>
        if keyClash frag acc then .error .KeyCollision
        else .ok (frag ++ acc, .cons n s' rest')
def pipeTransformGo (ss : Steps) (x : Obs) : Except Err (Obs × Steps) :=
  match ss with
  | .nil => .ok (x, .nil)
  | .cons n s rest =>
    match stepTransformS s x with
    | .error e => .error e
    | .ok (x1, s') =>
      match pipeTransformGo rest x1 with
      | .error e => .error e
      | .ok (x2, rest') => .ok (x2, .cons n s' rest')
end

mutual
/-- Modelled from the spec: predict_one, pure with respect to state;
only the estimator and the Pipeline (threading transforms through all
steps before the last, then predicting with the last) implement it.
The minimal estimator predicts the running mean of the targets seen
so far, 0 before any. -/
def stepPredictS (s : Step) (x : Obs) : Except Err (ℚ × Step) :=
  match s with
  | .func _ _ => .error .NoCapability
  | .agg _ => .error .NoCapability
  | .discard _ => .error .NoCapability
  | .est m => .ok ((m.get).getD 0, .est m)
  | .union _ => .error .NoCapability
  | .pipe ss =>
    match pipePredictGo ss x with
    | .error e => .error e
    | .ok (p, ss') => .ok (p, .pipe ss')
def pipePredictGo (ss : Steps) (x : Obs) : Except Err (ℚ × Steps) :=
  match ss with
  | .nil => .error .NoCapability
  | .cons n s .nil =>
    match stepPredictS s x with
    | .error e => .error e
    | .ok (p, s') => .ok (p, .cons n s' .nil)
  | .cons n s (Steps.cons n2 s2 rest2) =>
    match stepTransformS s x with
    | .error e => .error e
    | .ok (x1, s') =>
      match pipePredictGo (.cons n2 s2 rest2) x1 with
      | .error e => .error e
      | .ok (p, rest') => .ok (p, .cons n s' rest')
end

mutual
/-- Modelled from the spec: learn_one of each step variant, returning
the same step with its internal state updated.  A Pipeline first
obtains each step's transform contribution (from pre-learn state,
mirroring the prior predict pass), then calls that step's learn_one
with the pre-transform observation and the target, then proceeds to
the next step with the transformed observation; a Union lets each
member learn on the same incoming observation. -/
def stepLearn (s : Step) (x : Obs) (y : ℚ) : Except Err Step :=
  match s with
  | .func n f => .ok (.func n f)
  | .agg a =>
    match a.learn_one x y with
    | .error e => .error e
    | .ok a2 => .ok (.agg a2)
  | .discard ks => .ok (.discard ks)
  | .est m => .ok (.est (m.update y))
  | .union ms =>
    match unionLearnGo ms x y with
    | .error e => .error e
    | .ok ms' => .ok (.union ms')
  | .pipe ss =>
    match pipeLearnGo ss x y with
    | .error e => .error e
    | .ok ss' => .ok (.pipe ss')
def unionLearnGo (ms : Steps) (x : Obs) (y : ℚ) : Except Err Steps :=
  match ms with
  | .nil => .ok .nil
  | .cons n s rest =>
    match stepLearn s x y with
    | .error e => .error e
    | .ok s' =>
      match unionLearnGo rest x y with
      | .error e => .error e
      | .ok rest' => .ok (.cons n s' rest')
def pipeLearnGo (ss : Steps) (x : Obs) (y : ℚ) : Except Err Steps :=
  match ss with
  | .nil => .ok .nil
  | .cons n s rest =>
    match stepTransformS s x with
    | .error e => .error e
    | .ok (x1, _) =>
      match stepLearn s x y with
      | .error e => .error e
      | .ok s' =>
        match pipeLearnGo rest x1 y with
        | .error e => .error e
        | .ok rest' => .ok (.cons n s' rest')
end

mutual
/-- Erase every piece of mutable internal state of a step, keeping
its identity: names, configuration and structure. -/
def Step.reset (s : Step) : Step :=
  match s with
  | .func n f => .func n f
  | .agg a => .agg ⟨a.by_, a.target_name, a.window_size, []⟩
  | .discard ks => .discard ks
  | .est _ => .est Mean.init
  | .union ms => .union ms.reset
  | .pipe ss => .pipe ss.reset
def Steps.reset (ss : Steps) : Steps :=
  match ss with
  | .nil => .nil
  | .cons n s rest => .cons n s.reset rest.reset
end

/-- The mean-absolute-error metric kept by the evaluation driver. -/
structure MAE where
  n : Nat
  total : ℚ
deriving DecidableEq

def MAE.init : MAE := ⟨0, 0⟩

def MAE.update (m : MAE) (yt yp : ℚ) : MAE := ⟨m.n + 1, m.total + |yt - yp|⟩

def MAE.get (m : MAE) : ℚ := if m.n = 0 then 0 else m.total / (m.n : ℚ)

/-- Modelled from the spec: the evaluation driver walks a stream,
calling predict_one then learn_one on the model for each observation
and updating the metric with the out-of-fold prediction. -/
def progressiveValScore (s : Step) (stream : List (Obs × ℚ)) (metric : MAE) :
    Except Err (MAE × Step) :=
  match stream with
  | [] => .ok (metric, s)
  | (x, y) :: rest =>
    match stepPredictS s x with
    | .error e => .error e
    | .ok (p, s1) =>
      match stepLearn s1 x y with
      | .error e => .error e
      | .ok s2 => progressiveValScore s2 rest (metric.update y p)

/-- The output fragment of every union member on an observation, when
each member's transform succeeds. -/
def memberFrags (ms : Steps) (x : Obs) : Option (List Obs) :=
  match ms with
  | .nil => some []
  | .cons _ s rest =>
    match stepTransformS s x with
    | .error _ => none
    | .ok (frag, _) =>
      match memberFrags rest x with
      | none => none
      | some fs => some (frag :: fs)

/-- Whether a list of fragments is pairwise free of key clashes. -/
def fragsDisjoint (fs : List Obs) : Bool :=
  match fs with
  | [] => true
  | o :: rest => (!(rest.any (fun o2 => keyClash o o2))) && fragsDisjoint rest

/-- Concatenation of a list of observation fragments. -/
def concatObs (fs : List Obs) : Obs :=
  match fs with
  | [] => []
  | o :: rest => o ++ concatObs rest

/-- Two plain-function union members that both produce the feature
named x, as in the KeyCollision scenario. -/
def c2demoMembers : Steps :=
  Steps.cons ("f1") (Step.func ("f1") (fun _ => [(("x"), Value.num 1)]))
    (Steps.cons ("f2") (Step.func ("f2") (fun _ => [(("x"), Value.num 2)]))
      Steps.nil)

def c2demoX : Obs := [(("raw"), Value.num 0)]

def c2demoFrags : List Obs := [[(("x"), Value.num 1)], [(("x"), Value.num 2)]]

def c9x : Obs := [(("g"), Value.str ("A"))]

def c9b1 : TargetAgg := ⟨("g"), ("y"), 2, [(Value.str ("A"), ⟨2, [5], ⟨1, 5⟩⟩)]⟩

def c9b2 : TargetAgg := ⟨("g"), ("y"), 7, [(Value.str ("A"), ⟨7, [5], ⟨1, 5⟩⟩)]⟩

/-- The model of the notebooks built with the composition operators:
a plain function auto-wrapped and three Grouped Aggregators merged by
parallel compose, then a Discard step and the estimator chained by
sequential compose. -/
def opBuilt (nm : String) (f : Obs → Obs) (a1 a2 a3 : TargetAgg)
    (ds : List String) (e : Mean) : Step :=
  seqCompose (seqCompose
    (parCompose (parCompose (parCompose (stepOfFunc nm f) (Step.agg a1))
      (Step.agg a2)) (Step.agg a3))
    (Step.discard ds)) (Step.est e)

/-- The same model built with the explicit Pipeline, TransformerUnion
and FuncTransformer constructors, the components in the same order. -/
def ctorBuilt (nm : String) (f : Obs → Obs) (a1 a2 a3 : TargetAgg)
    (ds : List String) (e : Mean) : Step :=
  Pipeline (Steps.cons ("TransformerUnion")
    (TransformerUnion (Steps.cons nm (FuncTransformer nm f)
      (Steps.cons (autoName (Step.agg a1)) (Step.agg a1)
        (Steps.cons (autoName (Step.agg a2)) (Step.agg a2)
          (Steps.cons (autoName (Step.agg a3)) (Step.agg a3) Steps.nil)))))
    (Steps.cons ("Discard") (Step.discard ds)
      (Steps.cons ("MeanEstimator") (Step.est e) Steps.nil)))

theorem rolling_init_wf (c : Nat) : (Rolling.init c).WF := by
  refine ⟨?_, ?_, ?_⟩ <;> simp [Rolling.init, Mean.init]

/-- A single update on a well-formed window succeeds, preserves
well-formedness and the capacity, and either just appends the value
(when it fits) or appends it and drops the oldest value (FIFO). -/
theorem rolling_update_wf (r : Rolling) (v : ℚ) (h : r.WF) :
    ∃ r', r.update v = .ok r' ∧ r'.WF ∧ r'.capacity = r.capacity ∧
      r'.window = (if r.window.length + 1 ≤ r.capacity
        then r.window ++ [v] else (r.window ++ [v]).tail) := by
  obtain ⟨hlen, hcount, hsum⟩ := h
  unfold Rolling.update
  by_cases hfit : r.window.length + 1 ≤ r.capacity
  · refine ⟨⟨r.capacity, r.window ++ [v], r.acc.update v⟩, ?_, ?_, rfl, ?_⟩
    · simp [hfit]
    · refine ⟨?_, ?_, ?_⟩
      · simpa using hfit
      · simp [Mean.update, hcount]
      · simp [Mean.update, hsum]
    · simp [hfit]
  · match hw : r.window with
    | [] =>
      rw [hw] at hcount hsum hfit
      simp only [List.length_nil, List.sum_nil] at hcount hsum hfit
      have hrev : (r.acc.update v).revert v = .ok ⟨r.acc.count, r.acc.sum + v - v⟩ := by
        simp [Mean.update, Mean.revert]
      refine ⟨⟨r.capacity, [], ⟨r.acc.count, r.acc.sum + v - v⟩⟩, ?_, ?_, rfl, ?_⟩
      · rw [if_neg (by simpa using hfit)]
        simp [hrev]
      · refine ⟨by simp, by simp [hcount], by simp [hsum]⟩
      · rw [if_neg (by simpa using hfit)]
        simp
    | old :: rest =>
      rw [hw] at hcount hsum hfit
      have hrev : (r.acc.update v).revert old =
          .ok ⟨r.acc.count, r.acc.sum + v - old⟩ := by
        simp [Mean.update, Mean.revert]
      refine ⟨⟨r.capacity, rest ++ [v], ⟨r.acc.count, r.acc.sum + v - old⟩⟩, ?_, ?_, rfl, ?_⟩
      · rw [if_neg hfit]
        simp [hrev]
      · refine ⟨?_, ?_, ?_⟩
        · rw [hw] at hlen
          simp only [List.length_append, List.length_singleton]
          simp only [List.length_cons] at hlen hfit
          omega
        · simp only [List.length_cons] at hcount
          simp [hcount]
        · rw [hsum]
          simp only [List.sum_cons, List.sum_append, List.sum_singleton, List.sum_nil]
          ring
      · rw [if_neg hfit]
        simp

/-- Feeding any list through a well-formed window succeeds and
preserves well-formedness and the capacity. -/
theorem rolling_updateList_wf (vs : List ℚ) :
    ∀ r : Rolling, r.WF →
      ∃ r', r.updateList vs = .ok r' ∧ r'.WF ∧ r'.capacity = r.capacity := by
  induction vs with
  | nil => intro r h; exact ⟨r, rfl, h, rfl⟩
  | cons v rest ih =>
    intro r h
    obtain ⟨r1, hup, hwf1, hcap1, hwin1⟩ := rolling_update_wf r v h
    obtain ⟨r', hlist, hwf', hcap'⟩ := ih r1 hwf1
    refine ⟨r', ?_, hwf', by rw [hcap', hcap1]⟩
    simp [Rolling.updateList, hup, hlist]

theorem meanUpdateList_closed (vs : List ℚ) :
    ∀ m : Mean, meanUpdateList m vs = ⟨m.count + vs.length, m.sum + vs.sum⟩ := by
  induction vs with
  | nil => intro m; simp [meanUpdateList]
  | cons v rest ih =>
    intro m
    rw [meanUpdateList, ih]
    simp [Mean.update]
    constructor
    · omega
    · ring

theorem meanRevertList_ok (ws : List ℚ) :
    ∀ (c : Nat) (s : ℚ), ws.length ≤ c →
      meanRevertList ⟨c, s⟩ ws = .ok ⟨c - ws.length, s - ws.sum⟩ := by
  induction ws with
  | nil => intro c s _; simp [meanRevertList]
  | cons w rest ih =>
    intro c s hle
    simp only [List.length_cons] at hle
    match c, hle with
    | k + 1, _ =>
      rw [meanRevertList]
      have h1 : Mean.revert ⟨k + 1, s⟩ w = .ok ⟨k, s - w⟩ := by
        simp [Mean.revert]
      simp only [h1]
      rw [ih k (s - w) (by omega)]
      simp only [List.length_cons, List.sum_cons]
      congr 1
      simp only [Mean.mk.injEq]
      constructor
      · omega
      · ring

/-- Appending to the fed list corresponds to continuing from the
intermediate window state. -/
theorem rolling_updateList_append (vs ws : List ℚ) :
    ∀ r : Rolling, r.updateList (vs ++ ws) =
      (match r.updateList vs with
       | .error e => .error e
       | .ok r' => r'.updateList ws) := by
  induction vs with
  | nil => intro r; simp [Rolling.updateList]
  | cons v rest ih =>
    intro r
    rw [List.cons_append, Rolling.updateList, Rolling.updateList]
    match r.update v with
    | .error e => rfl
    | .ok r1 => exact ih r1

theorem lookup_upsertGroup (gs : List (Value × Rolling)) (k k' : Value) (r : Rolling) :
    lookupGroup (upsertGroup gs k r) k' =
      if k' = k then some r else lookupGroup gs k' := by
  induction gs with
  | nil =>
    by_cases h : k' = k
    · simp [upsertGroup, lookupGroup, h]
    · have h2 : ¬(k = k') := fun hh => h hh.symm
      simp [upsertGroup, lookupGroup, h, h2]
  | cons p rest ih =>
    obtain ⟨k0, r0⟩ := p
    by_cases h0 : k0 = k
    · subst h0
      by_cases h1 : k' = k0
      · subst h1
        simp [upsertGroup, lookupGroup]
      · have h2 : ¬(k0 = k') := fun hh => h1 hh.symm
        simp [upsertGroup, lookupGroup, h1, h2]
    · have hup : upsertGroup ((k0, r0) :: rest) k r = (k0, r0) :: upsertGroup rest k r := by
        simp [upsertGroup, h0]
      rw [hup]
      by_cases h1 : k0 = k'
      · subst h1
        simp [lookupGroup, h0]
      · simp [lookupGroup, h1, ih]

theorem groupsOK_congr (c : Nat) (h1 h2 : Value → List ℚ) (gs : List (Value × Rolling))
    (h : GroupsOK c h1 gs) (he : ∀ k, h2 k = h1 k) : GroupsOK c h2 gs := by
  intro k
  rw [he k]
  exact h k

theorem groupsOK_wf (c : Nat) (hist : Value → List ℚ) (gs : List (Value × Rolling))
    (h : GroupsOK c hist gs) (k : Value) :
    ((lookupGroup gs k).getD (Rolling.init c)).WF ∧
      ((lookupGroup gs k).getD (Rolling.init c)).capacity = c := by
  obtain ⟨r', hok, hwf, hcap⟩ :=
    rolling_updateList_wf (hist k) (Rolling.init c) (rolling_init_wf c)
  rw [h k] at hok
  injection hok with hok
  rw [← hok] at hwf hcap
  exact ⟨hwf, by simpa [Rolling.init] using hcap⟩

theorem groupsOK_step (c : Nat) (hist : Value → List ℚ) (gs : List (Value × Rolling))
    (kx : Value) (y : ℚ) (h : GroupsOK c hist gs) :
    ∃ w', ((lookupGroup gs kx).getD (Rolling.init c)).update y = .ok w' ∧
      GroupsOK c (fun k => if k = kx then hist k ++ [y] else hist k)
        (upsertGroup gs kx w') := by
  obtain ⟨hwf, _⟩ := groupsOK_wf c hist gs h kx
  obtain ⟨w', hup, _, _, _⟩ :=
    rolling_update_wf ((lookupGroup gs kx).getD (Rolling.init c)) y hwf
  refine ⟨w', hup, ?_⟩
  intro k
  simp only []
  by_cases hk : k = kx
  · subst hk
    rw [if_pos rfl, rolling_updateList_append, h k]
    rw [lookup_upsertGroup, if_pos rfl]
    simp [Rolling.updateList, hup]
  · rw [if_neg hk, lookup_upsertGroup, if_neg hk]
    exact h k

theorem learnList_groupsOK (b t : String) (c : Nat) (s : List (Obs × ℚ)) :
    ∀ (a a' : TargetAgg) (hist : Value → List ℚ),
      a.by_ = b → a.target_name = t → a.window_size = c →
      GroupsOK c hist a.groups →
      a.learnList s = .ok a' →
      a'.by_ = b ∧ a'.target_name = t ∧ a'.window_size = c ∧
        GroupsOK c (fun k => hist k ++ targetsFor b k s) a'.groups := by
  induction s with
  | nil =>
    intro a a' hist hb ht hc hg hl
    rw [TargetAgg.learnList] at hl
    injection hl with hl
    subst hl
    refine ⟨hb, ht, hc, ?_⟩
    refine groupsOK_congr c hist _ a.groups hg (fun k => ?_)
    simp [targetsFor]
  | cons p rest ih =>
    obtain ⟨x, y⟩ := p
    intro a a' hist hb ht hc hg hl
    rw [TargetAgg.learnList] at hl
    match hkey : lookupKey x a.by_ with
    | none =>
      have herr : a.learn_one x y = .error .MissingFeature := by
        rw [TargetAgg.learn_one, hkey]
      rw [herr] at hl
      simp only [] at hl
      exact absurd hl (by simp)
    | some kx =>
      obtain ⟨w', hup, hg'⟩ := groupsOK_step c hist a.groups kx y hg
      have hlearn1 : a.learn_one x y =
          .ok ⟨a.by_, a.target_name, a.window_size, upsertGroup a.groups kx w'⟩ := by
        rw [TargetAgg.learn_one, hkey]
        simp only [hc]
        rw [hup]
      rw [hlearn1] at hl
      simp only [] at hl
      have hstep := ih ⟨a.by_, a.target_name, a.window_size, upsertGroup a.groups kx w'⟩ a'
        (fun k => if k = kx then hist k ++ [y] else hist k) hb ht hc (by simpa [hc] using hg') hl
      obtain ⟨hb', ht', hc', hg''⟩ := hstep
      refine ⟨hb', ht', hc', ?_⟩
      refine groupsOK_congr c _ _ a'.groups hg'' (fun k => ?_)
      simp only [targetsFor]
      rw [hb] at hkey
      rw [hkey]
      by_cases hk : k = kx
      · subst hk
        simp
      · have hne : ¬(some kx = some k) := by
          intro hcon
          injection hcon with hcon
          exact hk hcon.symm
        rw [if_neg hne, if_neg hk]

theorem mean_get_eq (n : Nat) (s : ℚ) :
    Mean.get ⟨n, s⟩ = if n = 0 then none else some (s / (n : ℚ)) := by
  cases n with
  | zero => simp [Mean.get]
  | succ k => simp [Mean.get]

theorem meanOfList_eq (vs : List ℚ) :
    meanOfList vs = if vs.length = 0 then none else some (vs.sum / (vs.length : ℚ)) := by
  cases vs <;> simp [meanOfList]

/-- C1: for every observation, the value the Grouped Aggregator's
transform_one returns for group key K is independent of the current
observation's own target (transform_one never receives or reads a
target) and equals the configured rolling statistic computed over the
targets of strictly prior observations sharing key K. -/
theorem targetAgg_no_leakage (b t : String) (c : Nat) (s : List (Obs × ℚ))
    (a' : TargetAgg) (x : Obs) (k : Value)
    (hlearn : (TargetAgg.init b t c).learnList s = .ok a')
    (hx : lookupKey x b = some k) :
    a'.transform_one x =
      .ok [(t ++ "_mean_by_" ++ b, .num (rollingStatOf c (targetsFor b k s)))] := by
  have h0 : GroupsOK c (fun _ => []) (TargetAgg.init b t c).groups := by
    intro k2
    simp [TargetAgg.init, Rolling.updateList, lookupGroup]
  obtain ⟨hb', ht', hc', hg⟩ := learnList_groupsOK b t c s (TargetAgg.init b t c) a'
    (fun _ => []) rfl rfl rfl h0 hlearn
  have hgk := hg k
  simp only [List.nil_append] at hgk
  have hval : rollingStatOf c (targetsFor b k s) =
      (((lookupGroup a'.groups k).getD (Rolling.init c)).get).getD 0 := by
    rw [rollingStatOf.eq_def, hgk]
  rw [TargetAgg.transform_one.eq_def, hb', hx]
  simp only []
  rw [TargetAgg.featureName, hb', ht', hval]
  cases hlg : lookupGroup a'.groups k with
  | none => simp [hlg, Rolling.get, Rolling.init, Mean.init, Mean.get]
  | some g => simp [hlg]

theorem targetAgg_no_leakage_witness :
    ((TargetAgg.init ("g") ("y") 2).learnList c1demoStream = .ok c1demoAgg) ∧
    (lookupKey c1demoX ("g") = some (Value.str ("A"))) ∧
    (rollingStatOf 2 (targetsFor ("g") (Value.str ("A")) c1demoStream) = 15) ∧
    c1demoAgg.transform_one c1demoX =
      .ok [(("y") ++ "_mean_by_" ++ ("g"),
        .num (rollingStatOf 2 (targetsFor ("g") (Value.str ("A")) c1demoStream)))] := by
  have h1 : (TargetAgg.init ("g") ("y") 2).learnList c1demoStream = .ok c1demoAgg := by
    norm_num [TargetAgg.learnList, TargetAgg.learn_one, TargetAgg.init, c1demoStream,
      c1demoAgg, lookupKey, lookupGroup, upsertGroup, Rolling.update, Rolling.init,
      Mean.update, Mean.init]
  have h2 : lookupKey c1demoX ("g") = some (Value.str ("A")) := by
    norm_num [c1demoX, lookupKey]
  refine ⟨h1, h2, ?_,
    targetAgg_no_leakage ("g") ("y") 2 c1demoStream c1demoAgg c1demoX
      (Value.str ("A")) h1 h2⟩
  norm_num [rollingStatOf, targetsFor, c1demoStream, lookupKey, Rolling.updateList,
    Rolling.update, Rolling.init, Rolling.get, Mean.update, Mean.init, Mean.get]

/-- C3: for every Rolling Window of capacity C at least 1 and every
sequence of update calls, after each call the number of retained
values is at most C, and when the bound would be exceeded the oldest
value is evicted first (FIFO). -/
theorem rolling_window_bound :
    (∀ (cap : Nat), 1 ≤ cap → ∀ vs : List ℚ,
      ∃ r', (Rolling.init cap).updateList vs = .ok r' ∧ r'.window.length ≤ cap) ∧
    (∀ (r : Rolling) (v : ℚ) (r' : Rolling), r.WF → 1 ≤ r.capacity →
      r.window.length = r.capacity → r.update v = .ok r' →
      r'.window = r.window.tail ++ [v] ∧ r'.window.length = r.window.length) := by
  constructor
  · intro cap hcap vs
    obtain ⟨r', hok, hwf, hcapeq⟩ :=
      rolling_updateList_wf vs (Rolling.init cap) (rolling_init_wf cap)
    refine ⟨r', hok, ?_⟩
    have hlen := hwf.1
    rw [hcapeq] at hlen
    simpa [Rolling.init] using hlen
  · intro r v r' hwf hcap hfull hup
    obtain ⟨r'', hup'', hwf'', hcapeq'', hwin''⟩ := rolling_update_wf r v hwf
    rw [hup] at hup''
    injection hup'' with he
    subst he
    rw [if_neg (by omega)] at hwin''
    match hw : r.window with
    | [] =>
      rw [hw] at hfull
      simp at hfull
      omega
    | old :: rest =>
      rw [hw] at hwin''
      constructor
      · rw [hwin'']
        simp
      · rw [hwin'']
        simp

theorem rolling_window_bound_witness :
    1 ≤ 2 ∧
    ∃ r', (Rolling.init 2).updateList [4, 6, 10] = .ok r' ∧ r'.window.length ≤ 2 :=
  ⟨by omega, rolling_window_bound.1 2 (by omega) [4, 6, 10]⟩

/-- C4: after any N forward updates followed by reverting the oldest
M of them, the Mean accumulator's get equals the statistic recomputed
directly from the remaining raw values; and the capacity-2 Rolling
window scenario with updates 4, 6, 10 yields means 4, 5 and 8. -/
theorem mean_accumulator_consistency :
    (∀ (vs : List ℚ) (M : Nat), M ≤ vs.length →
      ∃ m', meanRevertList (meanUpdateList Mean.init vs) (vs.take M) = .ok m' ∧
        m'.get = meanOfList (vs.drop M)) ∧
    Except.map Rolling.get ((Rolling.init 2).updateList [4]) = .ok (some 4) ∧
    Except.map Rolling.get ((Rolling.init 2).updateList [4, 6]) = .ok (some 5) ∧
    Except.map Rolling.get ((Rolling.init 2).updateList [4, 6, 10]) = .ok (some 8) := by
  refine ⟨?_, ?_, ?_, ?_⟩
  case refine_2 =>
    norm_num [Rolling.updateList, Rolling.update, Rolling.init, Rolling.get,
      Mean.update, Mean.init, Mean.get, Mean.revert, Except.map]
  case refine_3 =>
    norm_num [Rolling.updateList, Rolling.update, Rolling.init, Rolling.get,
      Mean.update, Mean.init, Mean.get, Mean.revert, Except.map]
  case refine_4 =>
    norm_num [Rolling.updateList, Rolling.update, Rolling.init, Rolling.get,
      Mean.update, Mean.init, Mean.get, Mean.revert, Except.map]
  intro vs M hM
  have hupd : meanUpdateList Mean.init vs = ⟨vs.length, vs.sum⟩ := by
    simp [meanUpdateList_closed, Mean.init]
  have htk : (vs.take M).length = M := by
    rw [List.length_take, Nat.min_eq_left hM]
  have hrev := meanRevertList_ok (vs.take M) vs.length vs.sum (by rw [htk]; exact hM)
  refine ⟨⟨vs.length - (vs.take M).length, vs.sum - (vs.take M).sum⟩, ?_, ?_⟩
  · rw [hupd]
    exact hrev
  · rw [htk]
    rw [mean_get_eq, meanOfList_eq, List.length_drop]
    have hsum : (vs.take M).sum + (vs.drop M).sum = vs.sum := by
      rw [← List.sum_append, List.take_append_drop]
    have hds : (vs.drop M).sum = vs.sum - (vs.take M).sum := by
      rw [← hsum]
      ring
    rw [hds]

theorem mean_accumulator_consistency_witness :
    1 ≤ [(4 : ℚ), 6, 10].length ∧
    ∃ m', meanRevertList (meanUpdateList Mean.init [(4 : ℚ), 6, 10])
        ([(4 : ℚ), 6, 10].take 1) = .ok m' ∧
      m'.get = meanOfList ([(4 : ℚ), 6, 10].drop 1) :=
  ⟨by simp, mean_accumulator_consistency.1 [4, 6, 10] 1 (by simp)⟩

/-- C5: the Mean accumulator's reverse update fails with InvalidState
exactly when it would drive the count below zero, succeeds with
count -= 1 and sum -= value otherwise, and get returns sum / count
when the count is positive and the no-value-yet sentinel when it is
zero. -/
theorem mean_revert_underflow_and_get (m : Mean) (v : ℚ) :
    (m.count = 0 → m.revert v = .error .InvalidState) ∧
    (0 < m.count → m.revert v = .ok ⟨m.count - 1, m.sum - v⟩) ∧
    (m.get = if m.count = 0 then none else some (m.sum / (m.count : ℚ))) := by
  obtain ⟨n, s⟩ := m
  refine ⟨?_, ?_, ?_⟩
  · intro h
    simp only [] at h
    subst h
    rfl
  · intro h
    simp only [] at h
    match n, h with
    | k + 1, _ => simp [Mean.revert]
  · exact mean_get_eq n s

theorem mean_revert_underflow_and_get_witness :
    ((⟨0, 0⟩ : Mean).revert 1 = .error .InvalidState) ∧
    ((⟨2, 10⟩ : Mean).revert 4 = .ok ⟨2 - 1, (10 : ℚ) - 4⟩) :=
  ⟨(mean_revert_underflow_and_get ⟨0, 0⟩ 1).1 rfl,
   (mean_revert_underflow_and_get ⟨2, 10⟩ 4).2.1 (by decide)⟩

theorem steps_append_assoc : ∀ xs ys zs : Steps,
    (xs.append ys).append zs = xs.append (ys.append zs)
  | .nil, _, _ => rfl
  | .cons n s rest, ys, zs => by
    rw [Steps.append, Steps.append, Steps.append, steps_append_assoc rest ys zs]

theorem list_any_or_distrib (L : List String) (p q : String → Bool) :
    (L.any fun k => p k || q k) = (L.any p || L.any q) := by
  induction L with
  | nil => rfl
  | cons a l ih =>
    cases hpa : p a <;> cases hqa : q a <;>
      simp [List.any_cons, hpa, hqa, ih]

theorem keyClash_nil (o : Obs) : keyClash o [] = false := by
  simp [keyClash, keysOf]

theorem keyClash_append (o ys zs : Obs) :
    keyClash o (ys ++ zs) = (keyClash o ys || keyClash o zs) := by
  unfold keyClash keysOf
  rw [List.map_append]
  have h1 : ∀ k : String,
      ((ys.map Prod.fst ++ zs.map Prod.fst).any fun k2 => k2 == k) =
        (((ys.map Prod.fst).any fun k2 => k2 == k) ||
          ((zs.map Prod.fst).any fun k2 => k2 == k)) := by
    intro k
    rw [List.any_append]
  calc (o.map Prod.fst).any
        (fun k => (ys.map Prod.fst ++ zs.map Prod.fst).any fun k2 => k2 == k)
      = (o.map Prod.fst).any (fun k =>
          ((ys.map Prod.fst).any fun k2 => k2 == k) ||
            ((zs.map Prod.fst).any fun k2 => k2 == k)) := by
        congr 1
        funext k
        exact h1 k
    _ = _ := list_any_or_distrib _ _ _

theorem keyClash_concat (o : Obs) (fs : List Obs) :
    keyClash o (concatObs fs) = fs.any (fun f => keyClash o f) := by
  induction fs with
  | nil => simp [concatObs, keyClash_nil]
  | cons f rest ih => simp [concatObs, keyClash_append, ih, List.any_cons]

mutual
theorem stepTransformS_pure (s : Step) : ∀ (x o : Obs) (s' : Step),
    stepTransformS s x = .ok (o, s') → s' = s := by
  match s with
  | .func n f =>
    intro x o s' h
    rw [stepTransformS] at h
    simp only [Except.ok.injEq, Prod.mk.injEq] at h
    exact h.2.symm
  | .agg a =>
    intro x o s' h
    rw [stepTransformS] at h
    match ht : a.transform_one x with
    | .error e =>
      rw [ht] at h
      simp only [] at h
      exact absurd h (by simp)
    | .ok frag =>
      rw [ht] at h
      simp only [Except.ok.injEq, Prod.mk.injEq] at h
      exact h.2.symm
  | .discard ks =>
    intro x o s' h
    rw [stepTransformS] at h
    simp only [Except.ok.injEq, Prod.mk.injEq] at h
    exact h.2.symm
  | .est m =>
    intro x o s' h
    rw [stepTransformS] at h
    simp only [Except.ok.injEq, Prod.mk.injEq] at h
    exact h.2.symm
  | .union ms =>
    intro x o s' h
    rw [stepTransformS] at h
    match hu : unionTransformGo ms x with
    | .error e =>
      rw [hu] at h
      simp only [] at h
      exact absurd h (by simp)
    | .ok (merged, ms') =>
      rw [hu] at h
      simp only [Except.ok.injEq, Prod.mk.injEq] at h
      rw [← h.2, unionTransformGo_pure ms x merged ms' hu]
  | .pipe ss =>
    intro x o s' h
    rw [stepTransformS] at h
    match hp : pipeTransformGo ss x with
    | .error e =>
      rw [hp] at h
      simp only [] at h
      exact absurd h (by simp)
    | .ok (x2, ss') =>
      rw [hp] at h
      simp only [Except.ok.injEq, Prod.mk.injEq] at h
      rw [← h.2, pipeTransformGo_pure ss x x2 ss' hp]
theorem unionTransformGo_pure (ms : Steps) : ∀ (x o : Obs) (ms' : Steps),
    unionTransformGo ms x = .ok (o, ms') → ms' = ms := by
  match ms with
  | .nil =>
    intro x o ms' h
    rw [unionTransformGo] at h
    simp only [Except.ok.injEq, Prod.mk.injEq] at h
    exact h.2.symm
  | .cons n s rest =>
    intro x o ms' h
    rw [unionTransformGo] at h
    match ht : stepTransformS s x with
    | .error e =>
      rw [ht] at h
      simp only [] at h
      exact absurd h (by simp)
    | .ok (frag, s1) =>
      rw [ht] at h
      simp only [] at h
      match hr : unionTransformGo rest x with
      | .error e =>
        rw [hr] at h
        simp only [] at h
        exact absurd h (by simp)
      | .ok (acc, rest1) =>
        rw [hr] at h
        simp only [] at h
        by_cases hc : keyClash frag acc = true
        · rw [if_pos hc] at h
          exact absurd h (by simp)
        · rw [if_neg hc] at h
          simp only [Except.ok.injEq, Prod.mk.injEq] at h
          rw [← h.2, stepTransformS_pure s x frag s1 ht,
            unionTransformGo_pure rest x acc rest1 hr]
theorem pipeTransformGo_pure (ss : Steps) : ∀ (x o : Obs) (ss' : Steps),
    pipeTransformGo ss x = .ok (o, ss') → ss' = ss := by
  match ss with
  | .nil =>
    intro x o ss' h
    rw [pipeTransformGo] at h
    simp only [Except.ok.injEq, Prod.mk.injEq] at h
    exact h.2.symm
  | .cons n s rest =>
    intro x o ss' h
    rw [pipeTransformGo] at h
    match ht : stepTransformS s x with
    | .error e =>
      rw [ht] at h
      simp only [] at h
      exact absurd h (by simp)
    | .ok (x1, s1) =>
      rw [ht] at h
      simp only [] at h
      match hr : pipeTransformGo rest x1 with
      | .error e =>
        rw [hr] at h
        simp only [] at h
        exact absurd h (by simp)
      | .ok (x2, rest1) =>
        rw [hr] at h
        simp only [Except.ok.injEq, Prod.mk.injEq] at h
        rw [← h.2, stepTransformS_pure s x x1 s1 ht,
          pipeTransformGo_pure rest x1 x2 rest1 hr]
end

mutual
theorem stepPredictS_pure (s : Step) : ∀ (x : Obs) (p : ℚ) (s' : Step),
    stepPredictS s x = .ok (p, s') → s' = s := by
  match s with
  | .func n f =>
    intro x p s' h
    rw [stepPredictS] at h
    exact absurd h (by simp)
  | .agg a =>
    intro x p s' h
    rw [stepPredictS] at h
    exact absurd h (by simp)
  | .discard ks =>
    intro x p s' h
    rw [stepPredictS] at h
    exact absurd h (by simp)
  | .est m =>
    intro x p s' h
    rw [stepPredictS] at h
    simp only [Except.ok.injEq, Prod.mk.injEq] at h
    exact h.2.symm
  | .union ms =>
    intro x p s' h
    rw [stepPredictS] at h
    exact absurd h (by simp)
  | .pipe ss =>
    intro x p s' h
    rw [stepPredictS] at h
    match hp : pipePredictGo ss x with
    | .error e =>
      rw [hp] at h
      exact absurd h (by simp)
    | .ok (q, ss') =>
      rw [hp] at h
      simp only [Except.ok.injEq, Prod.mk.injEq] at h
      rw [← h.2, pipePredictGo_pure ss x q ss' hp]
theorem pipePredictGo_pure (ss : Steps) : ∀ (x : Obs) (p : ℚ) (ss' : Steps),
    pipePredictGo ss x = .ok (p, ss') → ss' = ss := by
  match ss with
  | .nil =>
    intro x p ss' h
    rw [pipePredictGo] at h
    exact absurd h (by simp)
  | .cons n s .nil =>
    intro x p ss' h
    rw [pipePredictGo] at h
    match hs : stepPredictS s x with
    | .error e =>
      rw [hs] at h
      exact absurd h (by simp)
    | .ok (q, s1) =>
      rw [hs] at h
      simp only [Except.ok.injEq, Prod.mk.injEq] at h
      rw [← h.2, stepPredictS_pure s x q s1 hs]
  | .cons n s (Steps.cons n2 s2 rest2) =>
    intro x p ss' h
    rw [pipePredictGo] at h
    match ht : stepTransformS s x with
    | .error e =>
      rw [ht] at h
      exact absurd h (by simp)
    | .ok (x1, s1) =>
      rw [ht] at h
      simp only [] at h
      match hr : pipePredictGo (Steps.cons n2 s2 rest2) x1 with
      | .error e =>
        rw [hr] at h
        exact absurd h (by simp)
      | .ok (q, rest1) =>
        rw [hr] at h
        simp only [Except.ok.injEq, Prod.mk.injEq] at h
        rw [← h.2, stepTransformS_pure s x x1 s1 ht,
          pipePredictGo_pure (Steps.cons n2 s2 rest2) x1 q rest1 hr]
end

theorem learn_one_fields (a a2 : TargetAgg) (x : Obs) (y : ℚ)
    (h : a.learn_one x y = .ok a2) :
    a2.by_ = a.by_ ∧ a2.target_name = a.target_name ∧
      a2.window_size = a.window_size := by
  rw [TargetAgg.learn_one] at h
  match hk : lookupKey x a.by_ with
  | none =>
    rw [hk] at h
    exact absurd h (by simp)
  | some k =>
    rw [hk] at h
    simp only [] at h
    match hu : ((lookupGroup a.groups k).getD (Rolling.init a.window_size)).update y with
    | .error e =>
      rw [hu] at h
      exact absurd h (by simp)
    | .ok w' =>
      rw [hu] at h
      simp only [Except.ok.injEq] at h
      rw [← h]
      exact ⟨rfl, rfl, rfl⟩

mutual
theorem stepLearn_reset (s : Step) : ∀ (x : Obs) (y : ℚ) (s' : Step),
    stepLearn s x y = .ok s' → Step.reset s' = Step.reset s := by
  match s with
  | .func n f =>
    intro x y s' h
    rw [stepLearn] at h
    simp only [Except.ok.injEq] at h
    rw [← h]
  | .agg a =>
    intro x y s' h
    rw [stepLearn] at h
    match hla : a.learn_one x y with
    | .error e =>
      rw [hla] at h
      exact absurd h (by simp)
    | .ok a2 =>
      rw [hla] at h
      simp only [Except.ok.injEq] at h
      obtain ⟨h1, h2, h3⟩ := learn_one_fields a a2 x y hla
      rw [← h]
      simp [Step.reset, h1, h2, h3]
  | .discard ks =>
    intro x y s' h
    rw [stepLearn] at h
    simp only [Except.ok.injEq] at h
    rw [← h]
  | .est m =>
    intro x y s' h
    rw [stepLearn] at h
    simp only [Except.ok.injEq] at h
    rw [← h]
    simp [Step.reset]
  | .union ms =>
    intro x y s' h
    rw [stepLearn] at h
    match hms : unionLearnGo ms x y with
    | .error e =>
      rw [hms] at h
      exact absurd h (by simp)
    | .ok ms' =>
      rw [hms] at h
      simp only [Except.ok.injEq] at h
      rw [← h]
      simp [Step.reset, unionLearnGo_reset ms x y ms' hms]
  | .pipe ss =>
    intro x y s' h
    rw [stepLearn] at h
    match hss : pipeLearnGo ss x y with
    | .error e =>
      rw [hss] at h
      exact absurd h (by simp)
    | .ok ss' =>
      rw [hss] at h
      simp only [Except.ok.injEq] at h
      rw [← h]
      simp [Step.reset, pipeLearnGo_reset ss x y ss' hss]
theorem unionLearnGo_reset (ms : Steps) : ∀ (x : Obs) (y : ℚ) (ms' : Steps),
    unionLearnGo ms x y = .ok ms' → Steps.reset ms' = Steps.reset ms := by
  match ms with
  | .nil =>
    intro x y ms' h
    rw [unionLearnGo] at h
    simp only [Except.ok.injEq] at h
    rw [← h]
  | .cons n s rest =>
    intro x y ms' h
    rw [unionLearnGo] at h
    match h1 : stepLearn s x y with
    | .error e =>
      rw [h1] at h
      exact absurd h (by simp)
    | .ok s2 =>
      rw [h1] at h
      simp only [] at h
      match h2 : unionLearnGo rest x y with
      | .error e =>
        rw [h2] at h
        exact absurd h (by simp)
      | .ok rest2 =>
        rw [h2] at h
        simp only [Except.ok.injEq] at h
        rw [← h]
        simp [Steps.reset, stepLearn_reset s x y s2 h1,
          unionLearnGo_reset rest x y rest2 h2]
theorem pipeLearnGo_reset (ss : Steps) : ∀ (x : Obs) (y : ℚ) (ss' : Steps),
    pipeLearnGo ss x y = .ok ss' → Steps.reset ss' = Steps.reset ss := by
  match ss with
  | .nil =>
    intro x y ss' h
    rw [pipeLearnGo] at h
    simp only [Except.ok.injEq] at h
    rw [← h]
  | .cons n s rest =>
    intro x y ss' h
    rw [pipeLearnGo] at h
    match h0 : stepTransformS s x with
    | .error e =>
      rw [h0] at h
      exact absurd h (by simp)
    | .ok (x1, s1) =>
      rw [h0] at h
      simp only [] at h
      match h1 : stepLearn s x y with
      | .error e =>
        rw [h1] at h
        exact absurd h (by simp)
      | .ok s2 =>
        rw [h1] at h
        simp only [] at h
        match h2 : pipeLearnGo rest x1 y with
        | .error e =>
          rw [h2] at h
          exact absurd h (by simp)
        | .ok rest2 =>
          rw [h2] at h
          simp only [Except.ok.injEq] at h
          rw [← h]
          simp [Steps.reset, stepLearn_reset s x y s2 h1,
            pipeLearnGo_reset rest x1 y rest2 h2]
end

theorem unionGo_ok_of_disjoint : ∀ (ms : Steps) (x : Obs) (fs : List Obs),
    memberFrags ms x = some fs → fragsDisjoint fs = true →
    ∃ ms', unionTransformGo ms x = .ok (concatObs fs, ms')
  | .nil, x, fs => by
    intro hf _
    rw [memberFrags] at hf
    simp only [Option.some.injEq] at hf
    subst hf
    exact ⟨.nil, by rw [unionTransformGo]; rfl⟩
  | .cons n s rest, x, fs => by
    intro hf hd
    rw [memberFrags] at hf
    match ht : stepTransformS s x with
    | .error e =>
      rw [ht] at hf
      exact absurd hf (by simp)
    | .ok (frag, s1) =>
      rw [ht] at hf
      simp only [] at hf
      match hr : memberFrags rest x with
      | none =>
        rw [hr] at hf
        exact absurd hf (by simp)
      | some fs2 =>
        rw [hr] at hf
        simp only [Option.some.injEq] at hf
        subst hf
        rw [fragsDisjoint] at hd
        simp only [Bool.and_eq_true, Bool.not_eq_true'] at hd
        obtain ⟨hnc, hd2⟩ := hd
        obtain ⟨rest', hok⟩ := unionGo_ok_of_disjoint rest x fs2 hr hd2
        refine ⟨.cons n s1 rest', ?_⟩
        rw [unionTransformGo, ht]
        simp only []
        rw [hok]
        simp only []
        rw [keyClash_concat, hnc]
        simp [concatObs]

theorem unionGo_collision : ∀ (ms : Steps) (x : Obs) (fs : List Obs),
    memberFrags ms x = some fs → fragsDisjoint fs = false →
    unionTransformGo ms x = .error .KeyCollision
  | .nil, x, fs => by
    intro hf hd
    rw [memberFrags] at hf
    simp only [Option.some.injEq] at hf
    subst hf
    exact absurd hd (by simp [fragsDisjoint])
  | .cons n s rest, x, fs => by
    intro hf hd
    rw [memberFrags] at hf
    match ht : stepTransformS s x with
    | .error e =>
      rw [ht] at hf
      exact absurd hf (by simp)
    | .ok (frag, s1) =>
      rw [ht] at hf
      simp only [] at hf
      match hr : memberFrags rest x with
      | none =>
        rw [hr] at hf
        exact absurd hf (by simp)
      | some fs2 =>
        rw [hr] at hf
        simp only [Option.some.injEq] at hf
        subst hf
        by_cases hd2 : fragsDisjoint fs2 = true
        · rw [fragsDisjoint, hd2] at hd
          simp only [Bool.and_true, Bool.not_eq_false'] at hd
          obtain ⟨rest', hok⟩ := unionGo_ok_of_disjoint rest x fs2 hr hd2
          rw [unionTransformGo, ht]
          simp only []
          rw [hok]
          simp only []
          rw [keyClash_concat, hd]
          simp
        · have hd2f : fragsDisjoint fs2 = false := by
            cases hcf : fragsDisjoint fs2
            · rfl
            · exact absurd hcf hd2
          have hrec := unionGo_collision rest x fs2 hr hd2f
          rw [unionTransformGo, ht]
          simp only []
          rw [hrec]

/-- C2: for every Union and every input observation, when two Union
members produce the same output feature name during the merge, the
Union's transform_one (and the transform_one of any Pipeline whose
step it is) fails with a KeyCollision error instead of silently
letting the last writer overwrite the earlier value. -/
theorem union_key_collision (ms : Steps) (x : Obs) (fs : List Obs)
    (hf : memberFrags ms x = some fs) (hcol : fragsDisjoint fs = false) :
    stepTransformS (Step.union ms) x = .error .KeyCollision ∧
    ∀ (n : String) (rest : Steps),
      stepTransformS (Step.pipe (Steps.cons n (Step.union ms) rest)) x =
        .error .KeyCollision := by
  have hu := unionGo_collision ms x fs hf hcol
  have h1 : stepTransformS (Step.union ms) x = .error .KeyCollision := by
    rw [stepTransformS, hu]
  refine ⟨h1, fun n rest => ?_⟩
  rw [stepTransformS, pipeTransformGo, h1]

theorem union_key_collision_witness :
    (memberFrags c2demoMembers c2demoX = some c2demoFrags) ∧
    (fragsDisjoint c2demoFrags = false) ∧
    stepTransformS (Step.union c2demoMembers) c2demoX = .error .KeyCollision ∧
    stepTransformS (Step.pipe (Steps.cons ("features") (Step.union c2demoMembers)
      (Steps.cons ("drop") (Step.discard [("raw")])
        (Steps.cons ("model") (Step.est Mean.init) Steps.nil)))) c2demoX =
      .error .KeyCollision := by
  have h1 : memberFrags c2demoMembers c2demoX = some c2demoFrags := rfl
  have h2 : fragsDisjoint c2demoFrags = false := rfl
  have h3 := union_key_collision c2demoMembers c2demoX c2demoFrags h1 h2
  exact ⟨h1, h2, h3.1, h3.2 ("features") _⟩

/-- C6: sequential compose is associative: composing (A then B) then C
yields the same Pipeline value, hence the same flattened step order and
the same transform and learn results on any input, as composing
A then (B then C); a Pipeline composed onto a Pipeline flattens one
level while a Union stays one single composite step. -/
theorem seq_compose_assoc (a b c : Step) :
    seqCompose (seqCompose a b) c = seqCompose a (seqCompose b c) ∧
    (seqCompose (seqCompose a b) c).toSteps =
      (a.toSteps.append b.toSteps).append c.toSteps ∧
    (∀ x, stepTransformS (seqCompose (seqCompose a b) c) x =
      stepTransformS (seqCompose a (seqCompose b c)) x) ∧
    (∀ x y, stepLearn (seqCompose (seqCompose a b) c) x y =
      stepLearn (seqCompose a (seqCompose b c)) x y) ∧
    (∀ ms : Steps, (Step.union ms).toSteps =
      Steps.cons (autoName (Step.union ms)) (Step.union ms) Steps.nil) := by
  have h : seqCompose (seqCompose a b) c = seqCompose a (seqCompose b c) := by
    show Step.pipe ((a.toSteps.append b.toSteps).append c.toSteps) =
      Step.pipe (a.toSteps.append (b.toSteps.append c.toSteps))
    rw [steps_append_assoc]
  exact ⟨h, rfl, fun x => by rw [h], fun x y => by rw [h], fun ms => rfl⟩

/-- C7: for every Step, a whole Pipeline included, learn_one updates
the step's internal state and returns that same step (identical
identity, names and configuration; only internal state differs), so
that calls can be chained. -/
theorem learn_one_returns_self (s : Step) (x : Obs) (y : ℚ) (s' : Step)
    (h : stepLearn s x y = .ok s') : Step.reset s' = Step.reset s :=
  stepLearn_reset s x y s' h

theorem learn_one_returns_self_witness :
    (stepLearn (Step.est ⟨0, 0⟩) [] 3 = .ok (Step.est ((⟨0, 0⟩ : Mean).update 3))) ∧
    Step.reset (Step.est ((⟨0, 0⟩ : Mean).update 3)) = Step.reset (Step.est ⟨0, 0⟩) :=
  ⟨rfl, learn_one_returns_self (Step.est ⟨0, 0⟩) [] 3 _ rfl⟩

/-- C8: predict_one and transform_one (the Grouped Aggregator's
included) leave every step's internal state unchanged: whenever they
succeed, the post-call step equals the pre-call step, so calling them
any number of times between two learn_one calls returns the same
result and does not alter subsequent behaviour. -/
theorem transform_predict_pure (s : Step) (x : Obs) :
    (∀ (o : Obs) (s' : Step), stepTransformS s x = .ok (o, s') → s' = s) ∧
    (∀ (p : ℚ) (s' : Step), stepPredictS s x = .ok (p, s') → s' = s) :=
  ⟨fun o s' h => stepTransformS_pure s x o s' h,
   fun p s' h => stepPredictS_pure s x p s' h⟩

theorem transform_predict_pure_witness :
    (stepTransformS (Step.agg c1demoAgg) c1demoX =
      .ok ([(("y") ++ "_mean_by_" ++ ("g"), Value.num 15)], Step.agg c1demoAgg)) ∧
    Step.agg c1demoAgg = Step.agg c1demoAgg := by
  have h1 : stepTransformS (Step.agg c1demoAgg) c1demoX =
      .ok ([(("y") ++ "_mean_by_" ++ ("g"), Value.num 15)], Step.agg c1demoAgg) := by
    rw [stepTransformS]
    have ht : c1demoAgg.transform_one c1demoX =
        .ok [(("y") ++ "_mean_by_" ++ ("g"), Value.num 15)] := by
      norm_num [TargetAgg.transform_one, TargetAgg.featureName, c1demoAgg, c1demoX,
        lookupKey, lookupGroup, Rolling.get, Mean.get]
    rw [ht]
  exact ⟨h1, (transform_predict_pure (Step.agg c1demoAgg) c1demoX).1 _ _ h1⟩

/-- C9: the auto-derived name of a Grouped Aggregator depends only on
its target name and group-by field, so two aggregators differing only
in window size get the same name; and execution routes each
observation through every step's own state regardless of the names,
so colliding names never merge, drop or misroute steps. -/
theorem auto_naming_and_routing :
    (∀ a1 a2 : TargetAgg, a1.by_ = a2.by_ → a1.target_name = a2.target_name →
      autoName (Step.agg a1) = autoName (Step.agg a2)) ∧
    (∀ (n1 n2 : String) (a1 a2 : TargetAgg) (x : Obs) (y : ℚ) (b1 b2 : TargetAgg),
      a1.learn_one x y = .ok b1 → a2.learn_one x y = .ok b2 →
      stepLearn (Step.union (Steps.cons n1 (Step.agg a1)
        (Steps.cons n2 (Step.agg a2) Steps.nil))) x y =
        .ok (Step.union (Steps.cons n1 (Step.agg b1)
          (Steps.cons n2 (Step.agg b2) Steps.nil)))) := by
  constructor
  · intro a1 a2 hb ht
    simp [autoName, hb, ht]
  · intro n1 n2 a1 a2 x y b1 b2 h1 h2
    have e1 : stepLearn (Step.agg a1) x y = .ok (Step.agg b1) := by
      rw [stepLearn, h1]
    have e2 : stepLearn (Step.agg a2) x y = .ok (Step.agg b2) := by
      rw [stepLearn, h2]
    rw [stepLearn, unionLearnGo, e1]
    simp only []
    rw [unionLearnGo, e2]
    simp only []
    rw [unionLearnGo]

theorem auto_naming_and_routing_witness :
    (autoName (Step.agg (TargetAgg.init ("g") ("y") 2)) =
      autoName (Step.agg (TargetAgg.init ("g") ("y") 7))) ∧
    ((TargetAgg.init ("g") ("y") 2).learn_one c9x 5 = .ok c9b1) ∧
    ((TargetAgg.init ("g") ("y") 7).learn_one c9x 5 = .ok c9b2) ∧
    stepLearn (Step.union (Steps.cons ("y_mean_by_g")
        (Step.agg (TargetAgg.init ("g") ("y") 2))
      (Steps.cons ("y_mean_by_g")
        (Step.agg (TargetAgg.init ("g") ("y") 7)) Steps.nil))) c9x 5 =
      .ok (Step.union (Steps.cons ("y_mean_by_g") (Step.agg c9b1)
        (Steps.cons ("y_mean_by_g") (Step.agg c9b2) Steps.nil))) := by
  have h1 : (TargetAgg.init ("g") ("y") 2).learn_one c9x 5 = .ok c9b1 := by
    norm_num [TargetAgg.learn_one, TargetAgg.init, c9x, c9b1, lookupKey, lookupGroup,
      upsertGroup, Rolling.update, Rolling.init, Mean.update, Mean.init]
  have h2 : (TargetAgg.init ("g") ("y") 7).learn_one c9x 5 = .ok c9b2 := by
    norm_num [TargetAgg.learn_one, TargetAgg.init, c9x, c9b2, lookupKey, lookupGroup,
      upsertGroup, Rolling.update, Rolling.init, Mean.update, Mean.init]
  exact ⟨auto_naming_and_routing.1 _ _ rfl rfl, h1, h2,
    auto_naming_and_routing.2 ("y_mean_by_g") ("y_mean_by_g") _ _ c9x 5 c9b1 c9b2 h1 h2⟩

/-- C10: the pipeline built with the composition operators (parallel
compose building a Union, sequential compose building a Pipeline, a
plain function auto-wrapped as a stateless transformer) is the same
Step value as, and therefore observationally equivalent to, the
pipeline built by the explicit constructors with the same components
in the same order: identical transform outputs, predictions, and
final metric values on every input stream. -/
theorem operators_match_constructors (nm : String) (f : Obs → Obs)
    (a1 a2 a3 : TargetAgg) (ds : List String) (e : Mean) :
    opBuilt nm f a1 a2 a3 ds e = ctorBuilt nm f a1 a2 a3 ds e ∧
    (∀ x, stepTransformS (opBuilt nm f a1 a2 a3 ds e) x =
      stepTransformS (ctorBuilt nm f a1 a2 a3 ds e) x) ∧
    (∀ x, stepPredictS (opBuilt nm f a1 a2 a3 ds e) x =
      stepPredictS (ctorBuilt nm f a1 a2 a3 ds e) x) ∧
    (∀ stream metric, progressiveValScore (opBuilt nm f a1 a2 a3 ds e) stream metric =
      progressiveValScore (ctorBuilt nm f a1 a2 a3 ds e) stream metric) := by
  have h : opBuilt nm f a1 a2 a3 ds e = ctorBuilt nm f a1 a2 a3 ds e := rfl
  exact ⟨h, fun x => by rw [h], fun x => by rw [h], fun stream metric => by rw [h]⟩

end River
